import Mathlib

/-!
Verification of the Whisper `Message` / `Envelope` core (Message.cpp):
seal / open / populate and the proof-of-work search (`proveWork`,
`workProved`).

Modelling conventions:
* byte strings are `List Nat` (each element a byte value);
* the cryptographic primitives (Keccak hash, ECIES encrypt/decrypt,
  recoverable ECDSA sign/recover, `KeyPair(s).pub()`) are external
  collaborators of this file's code, so they are abstracted as the fields
  of a `Crypto` structure; claims assume only the laws they need and
  witnesses instantiate a concrete executable `toyCrypto`;
* `Secret` is a 32-byte string; the C++ test `if (_s)` is `s ≠ zero32`;
* `Public` keys and recovered signers are `Nat`, with `0` playing the
  role of the null key (the C++ code tests `if (m_to)` / `if (!m_from)`
  against the all-zero hash);
* fallible C++ code (bool-returning decrypt/populate, the constructor's
  catch-all) is modelled with `Option`.
-/

namespace Whisper

abbrev Bytes := List Nat

/-- Modelled from the spec: the frame flags bit "has signature" is bit 0
(`ContainsSignature` is declared in Message.h, which is outside src). -/
def ContainsSignature : Nat := 1

/-- Modelled from the spec: `sizeof(Signature)` — the recoverable ECDSA
signature is 65 bytes (Signature/h520 is declared outside src). -/
def sigSize : Nat := 65

/-- The all-zero 32-byte secret (`Secret()`); `if (_s)` is false exactly here. -/
def zero32 : Bytes := List.replicate 32 0

/-- The external cryptographic collaborators used by Message.cpp.
`pub` is `KeyPair(s).pub()`, `encrypt`/`decrypt` are the asymmetric
`dev::encrypt`/`dev::decrypt` (decrypt returns a success flag, hence
`Option`), `sign`/`recover` the recoverable signature scheme (recover
yields the null key `0` on failure), `sha3` the 256-bit hash. -/
structure Crypto where
  pub : Bytes → Nat
  encrypt : Nat → Bytes → Bytes
  decrypt : Bytes → Bytes → Option Bytes
  sign : Bytes → Bytes → Bytes
  recover : Bytes → Bytes → Nat
  sha3 : Bytes → Bytes

/-- The wire record (Envelope.h fields as used by Message.cpp):
expiry, ttl, 4-byte topic tags, opaque data, 256-bit nonce.
The `Envelope(RLP)` constructor copies all five fields verbatim from the
wire, so `nonce` can be an arbitrary value below `2 ^ 256`. -/
structure Envelope where
  expiry : Nat
  ttl : Nat
  topics : List Bytes
  data : Bytes
  nonce : Nat
deriving DecidableEq

/-- The decrypted view: `m_payload`, recovered sender `m_from` and
recipient `m_to` (both `0` when absent, matching the null-key tests). -/
structure Message where
  m_payload : Bytes
  m_from : Nat
  m_to : Nat
deriving DecidableEq

/-- `h256(bytesConstRef)` — FixedHash's explicit byte constructor copies
the bytes only when exactly 32 are supplied; with `FailIfDifferent` (the
default) any other length yields the zero hash.  (FixedHash.h is outside
src; behaviour modelled from its FailIfDifferent semantics.) -/
def h256FromBytes (b : Bytes) : Bytes :=
  if b.length = 32 then b else List.replicate 32 0

/-- Bytewise XOR of two 32-byte values (`operator^` on `h256`). -/
def xor32 (a b : Bytes) : Bytes := List.zipWith Nat.xor a b

/-- `Message::populate` (Message.cpp:280-299).  Input is the decrypted
frame; the result is `some (payload, m_from)` when the C++ code returns
`true` (with `m_from = 0` when no signature was consumed), `none` when
it returns `false`. -/
def Message.populate (C : Crypto) (d : Bytes) : Option (Bytes × Nat) :=
  if d.length = 0 then none
  else
    let flags := d.headI
    if flags &&& ContainsSignature ≠ 0 ∧ sigSize + 1 ≤ d.length then
      let payload := (d.drop 1).take (d.length - sigSize - 1)
      let m_from := C.recover (d.drop (1 + payload.length)) (C.sha3 payload)
      if m_from = 0 then none else some (payload, m_from)
    else
      some (d.drop 1, 0)

/-- The decryption-mode dispatch of `Message::Message` (Message.cpp:256-270):
a nonzero candidate secret is tried as a private key on the whole data;
the zero secret takes the topic-indexed path, which requires
`data.size ≥ 32 * topics.size`, derives the key by XORing the secret with
the 32-byte slot at `32 * topicIndex` and decrypts the data past the
topic slots.  Every early `return` of the constructor is `none`. -/
def decryptStep (C : Crypto) (e : Envelope) (s : Bytes) (topicIndex : Nat) :
    Option Bytes :=
  if s ≠ zero32 then
    C.decrypt s e.data
  else if e.data.length < e.topics.length * 32 then
    none
  else
    C.decrypt (xor32 s (h256FromBytes ((e.data.drop (32 * topicIndex)).take 32)))
      (e.data.drop (32 * e.topics.length))

/-- `Message::Message(Envelope, Secret, topicIndex)` (Message.cpp:253-278).
On a successful decrypt the frame is parsed by `populate`; on success the
recipient field is set to `KeyPair(_s).pub()`.  The constructor's
catch-all (and each early return) is the `none` result. -/
def Message.ofEnvelope (C : Crypto) (e : Envelope) (s : Bytes) (topicIndex : Nat) :
    Option Message :=
  match decryptStep C e s topicIndex with
  | none => none
  | some b =>
    match Message.populate C b with
    | none => none
    | some pf => some ⟨pf.1, pf.2, C.pub s⟩

/-- `Envelope::open` (Message.cpp:336-339): construct a Message from this
envelope and the candidate secret, with the default topic index 0
(default argument of the constructor, declared outside src; spec §6 makes
the topic index a caller-supplied parameter). -/
def Envelope.open' (C : Crypto) (e : Envelope) (s : Bytes) : Option Message :=
  Message.ofEnvelope C e s 0

/-- `Message::seal` (Message.cpp:301-325): build the frame (flags byte,
payload, optional 65-byte recoverable signature over `sha3(payload)`),
then either asymmetrically encrypt it for `m_to` or store it verbatim.
The subsequent `ret.proveWork(_workToProve)` mutates only the nonce and
is modelled separately (`proveWorkPair`), since it depends on the wall
clock and on the RLP serialisation of the envelope (outside src); the
envelope is returned with its freshly-constructed zero nonce.  The
in-seal `assert` of the sign/recover round trip is a process abort, not
a value path, and has no counterpart in the returned value. -/
def Message.seal (C : Crypto) (m_payload : Bytes) (m_to : Nat) (s_from : Bytes)
    (topic : List Bytes) (now ttl : Nat) : Envelope :=
  let input : Bytes :=
    if s_from ≠ zero32 then
      ContainsSignature :: (m_payload ++ C.sign s_from (C.sha3 m_payload))
    else
      0 :: m_payload
  let data := if m_to ≠ 0 then C.encrypt m_to input else input
  { expiry := now + ttl, ttl := ttl, topics := topic, data := data, nonce := 0 }

/-! ### Proof of work -/

/-- The bits of a byte, most significant first. -/
def bitsOfByte (b : Nat) : List Nat :=
  [b / 128 % 2, b / 64 % 2, b / 32 % 2, b / 16 % 2,
   b / 8 % 2, b / 4 % 2, b / 2 % 2, b % 2]

/-- Modelled from the spec: `FixedHash::firstBitSet` (FixedHash.h is
outside src) — the number of leading zero bits of the hash, reading the
bytes big-endian, most significant bit first. -/
def firstBitSet (bs : Bytes) : Nat :=
  (((bs.map bitsOfByte).flatten).takeWhile (fun b => b == 0)).length

/-- Big-endian byte string of length `k` for the value `n` (low `8 * k`
bits of `n`). -/
def bytesOfNat : Nat → Nat → Bytes
  | 0, _ => []
  | k + 1, n => bytesOfNat k (n / 256) ++ [n % 256]

/-- The 32-byte big-endian image of a `u256` value: `h256 d; d = m_nonce`. -/
def h256ofNat (n : Nat) : Bytes := bytesOfNat 32 n

/-- The bytes the `uint32_t` counter occupies at offsets 28..31 of `d[1]`
during the search.  The source reinterprets those four bytes as a
host-order `uint32_t` (`uint32_t& n = *(uint32_t*)&(d[1][28])`); the
project's target machines are little-endian, so the least significant
byte of the counter sits at offset 28. -/
def le32 (n : Nat) : Bytes :=
  [n % 256, n / 256 % 256, n / 65536 % 256, n / 16777216 % 256]

/-- The 64-byte block hashed for counter value `n` during `proveWork`'s
search: `d[0] = sha3(WithoutNonce)` (here the abstract `d0`) followed by
`d[1]`, whose bytes 0..27 are never written (they stay zero) and whose
bytes 28..31 hold the wrapped 32-bit counter. -/
def searchBlock (d0 : Bytes) (n : Nat) : Bytes :=
  d0 ++ List.replicate 28 0 ++ le32 (n % 2 ^ 32)

/-- The candidate loop of `Envelope::proveWork` (Message.cpp:359-369),
unrolled over its total number `k` of candidate evaluations: hash the
block for the current counter, keep `(bestBitSet, m_nonce)` and replace
them only on a strictly better score (`fbs > bestBitSet`).  The counter
is a `uint32_t`, so the stored nonce is the counter modulo `2 ^ 32`. -/
def proveWorkLoop (H : Bytes → Bytes) (d0 : Bytes) :
    Nat → Nat → Nat → Nat → Nat × Nat
  | 0, _, best, nonce => (best, nonce)
  | k + 1, n, best, nonce =>
    if best < firstBitSet (H (searchBlock d0 n)) then
      proveWorkLoop H d0 k (n + 1) (firstBitSet (H (searchBlock d0 n))) (n % 2 ^ 32)
    else
      proveWorkLoop H d0 k (n + 1) best nonce

/-- `Envelope::proveWork(_ms)` (Message.cpp:349-370), with the wall-clock
deadline abstracted into the number of 1024-candidate batches the clock
allows (`batches = 0` is an immediately-expired budget: the deadline is
polled before the first batch).  `H` is `dev::sha3`, `d0` the 32-byte
`sha3(WithoutNonce)` base, `n0` the envelope's prior nonce
(`bestBitSet = 0`, counter starts at `n = 0`).  Returns the final
`(bestBitSet, m_nonce)`. -/
def proveWorkPair (H : Bytes → Bytes) (d0 : Bytes) (batches n0 : Nat) : Nat × Nat :=
  proveWorkLoop H d0 (1024 * batches) 0 0 n0

/-- `Envelope::workProved` (Message.cpp:341-347): hash the base followed
by the big-endian 32-byte image of `m_nonce`, and return the leading
zero-bit count. -/
def workProved (H : Bytes → Bytes) (d0 : Bytes) (nonce : Nat) : Nat :=
  firstBitSet (H (d0 ++ h256ofNat nonce))

/-! ### A concrete executable instantiation of the crypto collaborators,
used by the witnesses and counterexamples. -/

/-- Big-endian interpretation of a byte string. -/
def natOfBytes (b : Bytes) : Nat := b.foldl (fun a x => a * 256 + x % 256) 0

/-- An executable toy instantiation of the abstract primitives.  It
satisfies the laws the claims assume: asymmetric decryption with `s`
inverts encryption under `pub s`, recovery of a produced signature
returns the signer's public key, signatures are 65 bytes, and the
all-zero (invalid) secret has the null public key. -/
def toyCrypto : Crypto where
  pub s := natOfBytes s
  encrypt pk m := bytesOfNat 8 pk ++ m
  decrypt s c := if c.take 8 = bytesOfNat 8 (natOfBytes s) then some (c.drop 8) else none
  sign s _h := s ++ List.replicate 33 0
  recover sig _h := natOfBytes (sig.take 32)
  sha3 b := bytesOfNat 32 (natOfBytes b)

/-! ### Concrete inputs used by witnesses and counterexamples -/

/-- A 32-byte recipient secret whose toy public key is `1`. -/
def krW : Bytes := List.replicate 31 0 ++ [1]

/-- A 32-byte sender secret whose toy public key is `2`. -/
def sFromW : Bytes := List.replicate 31 0 ++ [2]

/-- A 31-byte payload whose unsigned frame `0 :: cPayload` is exactly 32
bytes long (so the broadcast key slot is a full, well-defined 32 bytes). -/
def cPayload : Bytes := List.replicate 30 0 ++ [9]

/-- An envelope with one topic whose data opens on the toy broadcast
path: the first 32 bytes (the blinded key slot) are zero, and the
remainder decrypts under the zero key to the frame `[0, 7]`. -/
def eC2 : Envelope :=
  ⟨100, 60, [[1, 2, 3, 4]], List.replicate 32 0 ++ (List.replicate 8 0 ++ [0, 7]), 0⟩

/-- An envelope whose data decrypts under the toy secret `krW` to the
single-byte frame `[0]` (flags byte only, signature bit clear). -/
def eC9 : Envelope := ⟨100, 60, [], [0, 0, 0, 0, 0, 0, 0, 1, 0], 0⟩

/-- A 32-byte proof-of-work base block. -/
def cBase : Bytes := List.replicate 32 0

/-- A hash scoring 8 (output byte 0) exactly on blocks whose bytes at
offsets 60..63 — the counter bytes during the search — are the
little-endian encoding of 1, and scoring 0 (output byte 128) otherwise. -/
def cexHash (b : Bytes) : Bytes := if b.drop 60 = [1, 0, 0, 0] then [0] else [128]

/-- A hash scoring 8 on every block. -/
def constHash : Bytes → Bytes := fun _ => [0]

/-! ### Helper lemmas -/

lemma bytesOfNat_length : ∀ k n, (bytesOfNat k n).length = k
  | 0, _ => rfl
  | k + 1, n => by
    rw [bytesOfNat]
    simp [bytesOfNat_length k]

lemma bytesOfNat_zero : ∀ k, bytesOfNat k 0 = List.replicate k 0
  | 0 => rfl
  | k + 1 => by
    rw [bytesOfNat, Nat.zero_div, bytesOfNat_zero k, Nat.zero_mod,
      ← List.replicate_succ' (n := k)]

lemma bytesOfNat_add (j : Nat) : ∀ (k n : Nat),
    bytesOfNat (j + k) n = bytesOfNat j (n / 256 ^ k) ++ bytesOfNat k n
  | 0, n => by simp [bytesOfNat]
  | k + 1, n => by
    rw [← Nat.add_assoc, bytesOfNat, bytesOfNat, bytesOfNat_add j k (n / 256),
      Nat.div_div_eq_div_mul, List.append_assoc]
    ring_nf

lemma take_len_append (l m : Bytes) (k : Nat) (h : l.length = k) :
    (l ++ m).take k = l := by
  rw [← h, List.take_left]

lemma drop_len_append (l m : Bytes) (k : Nat) (h : l.length = k) :
    (l ++ m).drop k = m := by
  rw [← h, List.drop_left]

lemma toy_decrypt_encrypt (s m : Bytes) :
    toyCrypto.decrypt s (toyCrypto.encrypt (toyCrypto.pub s) m) = some m := by
  simp only [toyCrypto]
  rw [take_len_append _ _ 8 (bytesOfNat_length 8 _), if_pos rfl,
    drop_len_append _ _ 8 (bytesOfNat_length 8 _)]

lemma zipWith_xor_zero (l : Bytes) : ∀ n, l.length = n →
    List.zipWith Nat.xor (List.replicate n 0) l = l := by
  induction l with
  | nil => intro n _; simp
  | cons a t ih =>
    intro n hn
    cases n with
    | zero => simp at hn
    | succ k =>
      rw [List.replicate_succ, List.zipWith_cons_cons, ih k (by simpa using hn)]
      congr 1
      exact Nat.zero_xor a

lemma populate_plain (C : Crypto) (d : Bytes) (hne : d ≠ [])
    (h : ¬(d.headI &&& ContainsSignature ≠ 0 ∧ sigSize + 1 ≤ d.length)) :
    Message.populate C d = some (d.drop 1, 0) := by
  rw [Message.populate, if_neg (by simpa using hne)]
  simp only [if_neg h]

lemma populate_unsigned (C : Crypto) (p : Bytes) :
    Message.populate C (0 :: p) = some (p, 0) := by
  rw [populate_plain C (0 :: p) (by simp) (by simp [ContainsSignature])]
  simp

lemma populate_signed (C : Crypto) (p sig : Bytes) (hsl : sig.length = sigSize)
    (hrec : C.recover sig (C.sha3 p) ≠ 0) :
    Message.populate C (ContainsSignature :: (p ++ sig)) =
      some (p, C.recover sig (C.sha3 p)) := by
  have hp : (ContainsSignature :: (p ++ sig)).length - sigSize - 1 = p.length := by
    simp only [List.length_cons, List.length_append, hsl]
    omega
  have hpay : ((ContainsSignature :: (p ++ sig)).drop 1).take
      ((ContainsSignature :: (p ++ sig)).length - sigSize - 1) = p := by
    rw [List.drop_one, List.tail_cons, hp, take_len_append _ _ _ rfl]
  have hsig2 : (ContainsSignature :: (p ++ sig)).drop (1 + p.length) = sig := by
    rw [Nat.add_comm, List.drop_succ_cons, drop_len_append _ _ _ rfl]
  have hcond : (ContainsSignature :: (p ++ sig)).headI &&& ContainsSignature ≠ 0 ∧
      sigSize + 1 ≤ (ContainsSignature :: (p ++ sig)).length := by
    constructor
    · simp only [List.headI_cons]
      decide
    · simp only [List.length_cons, List.length_append, hsl]
      omega
  rw [Message.populate, if_neg (by simp)]
  simp only []
  rw [if_pos hcond, hpay, hsig2, if_neg hrec]

lemma ofEnvelope_eq_bind (C : Crypto) (e : Envelope) (s : Bytes) (topicIndex : Nat) :
    Message.ofEnvelope C e s topicIndex =
      (decryptStep C e s topicIndex).bind fun b =>
        (Message.populate C b).map fun pf => ⟨pf.1, pf.2, C.pub s⟩ := by
  rcases hd : decryptStep C e s topicIndex with _ | b
  · simp [Message.ofEnvelope, hd]
  · rcases hp : Message.populate C b with _ | pf <;>
      simp [Message.ofEnvelope, hd, hp]

lemma searchBlock_mod (d0 : Bytes) (n : Nat) :
    searchBlock d0 (n % 2 ^ 32) = searchBlock d0 n := by
  rw [searchBlock, searchBlock, Nat.mod_mod_of_dvd n dvd_rfl]

lemma proveWorkLoop_spec (H : Bytes → Bytes) (d0 : Bytes) :
    ∀ (k n best nonce : Nat),
      proveWorkLoop H d0 k n best nonce = (best, nonce) ∨
      ((proveWorkLoop H d0 k n best nonce).2 < 2 ^ 32 ∧
        best < (proveWorkLoop H d0 k n best nonce).1 ∧
        firstBitSet (H (searchBlock d0 (proveWorkLoop H d0 k n best nonce).2)) =
          (proveWorkLoop H d0 k n best nonce).1) := by
  intro k
  induction k with
  | zero => intro n best nonce; exact Or.inl rfl
  | succ k ih =>
    intro n best nonce
    rw [proveWorkLoop]
    by_cases h : best < firstBitSet (H (searchBlock d0 n))
    · rw [if_pos h]
      rcases ih (n + 1) (firstBitSet (H (searchBlock d0 n))) (n % 2 ^ 32) with
        h2 | ⟨ha, hb, hc⟩
      · right
        rw [h2]
        exact ⟨Nat.mod_lt _ (by norm_num), h, by rw [searchBlock_mod]⟩
      · exact Or.inr ⟨ha, lt_trans h hb, hc⟩
    · rw [if_neg h]
      rcases ih (n + 1) best nonce with h2 | ⟨ha, hb, hc⟩
      · exact Or.inl h2
      · exact Or.inr ⟨ha, hb, hc⟩

lemma loop_no_improve (H : Bytes → Bytes) (d0 : Bytes) (best : Nat)
    (hH : ∀ m : Nat, firstBitSet (H (searchBlock d0 m)) ≤ best) :
    ∀ k n nonce, proveWorkLoop H d0 k n best nonce = (best, nonce)
  | 0, _, _ => rfl
  | k + 1, n, nonce => by
    rw [proveWorkLoop, if_neg (Nat.not_lt.2 (hH n)),
      loop_no_improve H d0 best hH k]

lemma drop60_searchBlock (n : Nat) :
    (searchBlock cBase n).drop 60 = le32 (n % 2 ^ 32) := by
  rw [searchBlock, drop_len_append _ _ 60 (by decide)]

lemma le32_one_iff (x : Nat) (hx : x < 2 ^ 32) :
    le32 x = [1, 0, 0, 0] ↔ x = 1 := by
  constructor
  · intro h
    simp only [le32, List.cons.injEq, and_true] at h
    omega
  · intro h
    subst h
    decide

lemma cexHash_score (n : Nat) :
    firstBitSet (cexHash (searchBlock cBase n)) =
      if n % 2 ^ 32 = 1 then 8 else 0 := by
  rw [cexHash, drop60_searchBlock]
  by_cases h : n % 2 ^ 32 = 1
  · rw [if_pos ((le32_one_iff _ (Nat.mod_lt _ (by norm_num))).2 h), if_pos h]
    decide
  · rw [if_neg (fun hc => h ((le32_one_iff _ (Nat.mod_lt _ (by norm_num))).1 hc)),
      if_neg h]
    decide

lemma pair_cexHash : proveWorkPair cexHash cBase 1 0 = (8, 1) := by
  have hle : ∀ m : Nat, firstBitSet (cexHash (searchBlock cBase m)) ≤ 8 := by
    intro m
    rw [cexHash_score]
    split <;> omega
  rw [proveWorkPair, show 1024 * 1 = 1023 + 1 from by norm_num, proveWorkLoop,
    cexHash_score 0, Nat.zero_mod, if_neg (by norm_num : ¬(0 : Nat) = 1),
    if_neg (lt_irrefl 0)]
  rw [show (1023 : Nat) = 1022 + 1 from by norm_num, proveWorkLoop, cexHash_score 1,
    Nat.mod_eq_of_lt (by norm_num : (1 : Nat) < 2 ^ 32), if_pos rfl,
    if_pos (by norm_num : (0 : Nat) < 8)]
  exact loop_no_improve cexHash cBase 8 hle 1022 (0 + 1 + 1) 1

lemma pair_constHash : proveWorkPair constHash cBase 1 0 = (8, 0) := by
  have h8 : ∀ b, firstBitSet (constHash b) = 8 := fun _ => rfl
  rw [proveWorkPair, show 1024 * 1 = 1023 + 1 from by norm_num, proveWorkLoop, h8,
    if_pos (by norm_num : (0 : Nat) < 8), Nat.zero_mod]
  exact loop_no_improve constHash cBase 8 (fun m => le_of_eq (h8 _)) 1023 (0 + 1) 0

lemma h256ofNat_small (n : Nat) (hn : n < 2 ^ 32) :
    h256ofNat n = List.replicate 28 0 ++ bytesOfNat 4 n := by
  have h0 : n / 256 ^ 4 = 0 := Nat.div_eq_of_lt (by norm_num at hn ⊢; omega)
  rw [h256ofNat, show (32 : Nat) = 28 + 4 from rfl, bytesOfNat_add, h0,
    bytesOfNat_zero]

/-! ### The claims -/

/-- C5: opening is a total function from (envelope, secret, topic index)
to an optional Message: for every crypto instantiation, envelope byte
content and candidate secret, the result is either the explicit absence
`none` (every decryption or parsing fault maps there, mirroring the
constructor's early returns and catch-all) or a Message produced by a
successful decryption step followed by a successful frame parse — no
other outcome exists, and the model is a total computable function. -/
theorem open_total_inversion (C : Crypto) (e : Envelope) (s : Bytes) (topicIndex : Nat) :
    Message.ofEnvelope C e s topicIndex = none ∨
    ∃ b pf, decryptStep C e s topicIndex = some b ∧
      Message.populate C b = some pf ∧
      Message.ofEnvelope C e s topicIndex = some ⟨pf.1, pf.2, C.pub s⟩ := by
  rcases hd : decryptStep C e s topicIndex with _ | b
  · left
    simp [Message.ofEnvelope, hd]
  · rcases hp : Message.populate C b with _ | pf
    · left
      simp [Message.ofEnvelope, hd, hp]
    · right
      refine ⟨b, pf, rfl, hp, ?_⟩
      simp [Message.ofEnvelope, hd, hp]

/-- C7: a non-empty decrypted frame whose flags byte has the signature
bit set but whose total length is less than one plus the signature size
is parsed on the fallback path: the whole remainder after the flags byte
becomes the payload and the sender stays absent — parsing succeeds. -/
theorem populate_short_signature (C : Crypto) (d : Bytes)
    (hne : d ≠ []) (hflag : d.headI &&& ContainsSignature ≠ 0)
    (hlen : d.length < sigSize + 1) :
    Message.populate C d = some (d.drop 1, 0) :=
  populate_plain C d hne (fun hc => absurd hc.2 (by omega))

/-- Witness for C7: the two-byte frame `[1, 7]` (signature bit set,
far shorter than 66 bytes) parses to payload `[7]` with no sender. -/
theorem populate_short_signature_witness :
    Message.populate toyCrypto [1, 7] = some ([7], 0) :=
  populate_short_signature toyCrypto [1, 7] (by decide) (by decide) (by decide)

/-- C9: whenever the decryption step yields a frame of exactly one byte
whose signature flag is clear, opening fully succeeds and returns a
Message with empty payload and absent sender — so by inspecting the
payload alone such a success is indistinguishable from the absence
result (whose would-be payload is also empty). -/
theorem open_single_byte_frame (C : Crypto) (e : Envelope) (s : Bytes)
    (topicIndex : Nat) (b : Nat)
    (hd : decryptStep C e s topicIndex = some [b])
    (hb : b &&& ContainsSignature = 0) :
    Message.ofEnvelope C e s topicIndex = some ⟨[], 0, C.pub s⟩ := by
  have hp : Message.populate C [b] = some ([], 0) :=
    populate_plain C [b] (by simp) (by
      intro hc
      have h2 := hc.2
      simp [sigSize] at h2)
  rw [ofEnvelope_eq_bind, hd, Option.some_bind, hp, Option.map_some']

/-- Witness for C9: opening `eC9` with the secret `krW` decrypts to the
single-byte frame `[0]` and succeeds with empty payload, absent sender. -/
theorem open_single_byte_frame_witness :
    Message.ofEnvelope toyCrypto eC9 krW 0 = some ⟨[], 0, toyCrypto.pub krW⟩ :=
  open_single_byte_frame toyCrypto eC9 krW 0 0 (by decide) (by decide)

/-- C2: when opening fully succeeds, the recipient field is the public
key of the candidate secret, so it is populated exactly on the
direct/asymmetric path: a nonzero secret yields `recipient = pub s`,
while the topic-indexed/broadcast path (zero secret) leaves the
recipient absent, because the public key derived from the invalid
all-zero secret is the null key (hypothesis `hz`, the behaviour of
`KeyPair(Secret())` modelled from the spec). -/
theorem open_recipient_by_path (C : Crypto) (e : Envelope) (s : Bytes)
    (topicIndex : Nat) (m : Message)
    (hz : C.pub zero32 = 0)
    (hm : Message.ofEnvelope C e s topicIndex = some m) :
    (s ≠ zero32 → m.m_to = C.pub s) ∧ (s = zero32 → m.m_to = 0) := by
  rcases hd : decryptStep C e s topicIndex with _ | b
  · simp only [Message.ofEnvelope, hd] at hm
    exact Option.noConfusion hm
  · rcases hp : Message.populate C b with _ | pf
    · simp only [Message.ofEnvelope, hd, hp] at hm
      exact Option.noConfusion hm
    · simp only [Message.ofEnvelope, hd, hp, Option.some.injEq] at hm
      subst hm
      exact ⟨fun _ => rfl, fun hsz => by simp only [hsz, hz]⟩

/-- Witness for C2: opening the broadcast envelope `eC2` with the zero
secret succeeds and the resulting Message has an absent recipient. -/
theorem open_recipient_by_path_witness :
    ∃ m, Message.ofEnvelope toyCrypto eC2 zero32 0 = some m ∧ m.m_to = 0 :=
  ⟨⟨[7], 0, 0⟩, by decide,
    (open_recipient_by_path toyCrypto eC2 zero32 0 ⟨[7], 0, 0⟩ (by decide)
      (by decide)).2 rfl⟩

/-- C8: the decryption-mode dispatch of opening is decided solely by
whether the candidate secret is the all-zero value.  A nonzero secret
always takes the direct/asymmetric path — the result is exactly the
direct decryption followed by frame parsing, with no fallback to the
broadcast path on failure.  The zero secret always takes the
topic-indexed path, and (when the slot is in range) the key passed to
decryption is the 32-byte topic slot verbatim, since XOR with the zero
secret is the identity. -/
theorem open_dispatch_modes (C : Crypto) (e : Envelope) (s : Bytes) (topicIndex : Nat) :
    (s ≠ zero32 →
      Message.ofEnvelope C e s topicIndex =
        (C.decrypt s e.data).bind fun b =>
          (Message.populate C b).map fun pf => ⟨pf.1, pf.2, C.pub s⟩) ∧
    (s = zero32 → 32 * topicIndex + 32 ≤ e.data.length →
      e.topics.length * 32 ≤ e.data.length →
      Message.ofEnvelope C e s topicIndex =
        (C.decrypt ((e.data.drop (32 * topicIndex)).take 32)
            (e.data.drop (32 * e.topics.length))).bind fun b =>
          (Message.populate C b).map fun pf => ⟨pf.1, pf.2, C.pub s⟩) := by
  constructor
  · intro hs
    rw [ofEnvelope_eq_bind, decryptStep, if_pos hs]
  · intro hs h1 h2
    have hlen : ((e.data.drop (32 * topicIndex)).take 32).length = 32 := by
      simp only [List.length_take, List.length_drop]
      omega
    have hkey : xor32 s (h256FromBytes ((e.data.drop (32 * topicIndex)).take 32))
        = (e.data.drop (32 * topicIndex)).take 32 := by
      rw [hs, xor32, h256FromBytes, if_pos hlen, zero32, zipWith_xor_zero _ 32 hlen]
    rw [ofEnvelope_eq_bind, decryptStep, if_neg (by simp [hs]),
      if_neg (by omega), hkey]

/-- Witness for C8: the direct path on `eC9` with the nonzero secret
`krW`, and the broadcast path on `eC2` with the zero secret (whose
derived key is the first 32 data bytes verbatim). -/
theorem open_dispatch_modes_witness :
    (Message.ofEnvelope toyCrypto eC9 krW 0 =
      (toyCrypto.decrypt krW eC9.data).bind fun b =>
        (Message.populate toyCrypto b).map fun pf => ⟨pf.1, pf.2, toyCrypto.pub krW⟩) ∧
    (Message.ofEnvelope toyCrypto eC2 zero32 0 =
      (toyCrypto.decrypt ((eC2.data.drop (32 * 0)).take 32)
          (eC2.data.drop (32 * eC2.topics.length))).bind fun b =>
        (Message.populate toyCrypto b).map fun pf => ⟨pf.1, pf.2, toyCrypto.pub zero32⟩) :=
  ⟨(open_dispatch_modes toyCrypto eC9 krW 0).1 (by decide),
   (open_dispatch_modes toyCrypto eC2 zero32 0).2 rfl (by decide) (by decide)⟩

/-- C1 (amended): the seal/open round trip holds when a recipient key is
set on the Message: for every payload `p` and optional sender secret,
sealing with recipient `C.pub kr` and opening with the matching secret
`kr` yields a Message whose payload is `p`.  The hypotheses are the
correctness laws of the external primitives at the instances used
(asymmetric decryption inverts encryption under the matching key, a
produced signature is 65 bytes, recovers to the signer's non-null public
key).  When no recipient is set, seal stores the frame unencrypted and
opening with the zero secret takes the broadcast path, which in general
does not recover the payload (see the counterexample). -/
theorem seal_open_payload_direct (C : Crypto) (p kr s_from : Bytes)
    (topic : List Bytes) (now ttl : Nat)
    (hkr : kr ≠ zero32)
    (hto : C.pub kr ≠ 0)
    (hdec : ∀ x, C.decrypt kr (C.encrypt (C.pub kr) x) = some x)
    (hsl : s_from ≠ zero32 → (C.sign s_from (C.sha3 p)).length = sigSize)
    (hrc : s_from ≠ zero32 →
      C.recover (C.sign s_from (C.sha3 p)) (C.sha3 p) = C.pub s_from)
    (hfr : s_from ≠ zero32 → C.pub s_from ≠ 0) :
    (Envelope.open' C (Message.seal C p (C.pub kr) s_from topic now ttl) kr).map
      Message.m_payload = some p := by
  by_cases h : s_from = zero32
  · subst h
    simp [Envelope.open', Message.ofEnvelope, decryptStep, Message.seal,
      hkr, hto, hdec, populate_unsigned]
  · have hps := populate_signed C p (C.sign s_from (C.sha3 p)) (hsl h)
      (by rw [hrc h]; exact hfr h)
    simp [Envelope.open', Message.ofEnvelope, decryptStep, Message.seal,
      hkr, hto, hdec, h, hps]

/-- Witness for C1 at the toy crypto: payload `[1, 2]`, sender secret
`sFromW`, recipient key `pub krW`; opening with `krW` returns `[1, 2]`. -/
theorem seal_open_payload_direct_witness :
    (Envelope.open' toyCrypto
        (Message.seal toyCrypto [1, 2] (toyCrypto.pub krW) sFromW [] 100 60) krW).map
      Message.m_payload = some [1, 2] :=
  seal_open_payload_direct toyCrypto [1, 2] krW sFromW [] 100 60
    (by decide) (by decide) (fun x => toy_decrypt_encrypt krW x)
    (fun _ => by decide) (fun _ => by decide) (fun _ => by decide)

/-- Counterexample for C1 as stated: with no recipient key set, seal
stores the frame unencrypted; opening that envelope with the zero secret
(the secret matching the absent recipient key) takes the broadcast path
and fails, so the round trip does not return the payload. -/
theorem seal_open_roundtrip_cex :
    (Envelope.open' toyCrypto (Message.seal toyCrypto cPayload 0 zero32 [] 100 60)
        zero32).map Message.m_payload ≠ some cPayload := by
  decide

/-- C6: signature authenticity on the direct path: opening a sealed
envelope with the matching recipient secret yields a Message whose
sender is the public key of the sender secret when one was supplied, and
the null (absent) sender when sealing was unsigned.  Hypotheses are the
crypto laws at the instances used, as in the round-trip theorem. -/
theorem seal_open_sender (C : Crypto) (p kr s_from : Bytes)
    (topic : List Bytes) (now ttl : Nat)
    (hkr : kr ≠ zero32)
    (hto : C.pub kr ≠ 0)
    (hdec : ∀ x, C.decrypt kr (C.encrypt (C.pub kr) x) = some x)
    (hsl : s_from ≠ zero32 → (C.sign s_from (C.sha3 p)).length = sigSize)
    (hrc : s_from ≠ zero32 →
      C.recover (C.sign s_from (C.sha3 p)) (C.sha3 p) = C.pub s_from)
    (hfr : s_from ≠ zero32 → C.pub s_from ≠ 0) :
    (Envelope.open' C (Message.seal C p (C.pub kr) s_from topic now ttl) kr).map
      Message.m_from = some (if s_from = zero32 then 0 else C.pub s_from) := by
  by_cases h : s_from = zero32
  · subst h
    simp [Envelope.open', Message.ofEnvelope, decryptStep, Message.seal,
      hkr, hto, hdec, populate_unsigned]
  · have hps := populate_signed C p (C.sign s_from (C.sha3 p)) (hsl h)
      (by rw [hrc h]; exact hfr h)
    simp [Envelope.open', Message.ofEnvelope, decryptStep, Message.seal,
      hkr, hto, hdec, h, hps, hrc h]

/-- Witness for C6 at the toy crypto: sealing `[1, 2]` with sender
secret `sFromW` and opening with `krW` recovers sender `pub sFromW`. -/
theorem seal_open_sender_witness :
    (Envelope.open' toyCrypto
        (Message.seal toyCrypto [1, 2] (toyCrypto.pub krW) sFromW [] 100 60) krW).map
      Message.m_from = some (if sFromW = zero32 then 0 else toyCrypto.pub sFromW) :=
  seal_open_sender toyCrypto [1, 2] krW sFromW [] 100 60
    (by decide) (by decide) (fun x => toy_decrypt_encrypt krW x)
    (fun _ => by decide) (fun _ => by decide) (fun _ => by decide)

/-- C10: throughout the search only the 32-bit counter portion of the
candidate block varies: bytes 0..27 of the nonce half stay zero, and the
counter wraps modulo `2 ^ 32`, so the candidate block for `n + 2 ^ 32`
is identical to the one for `n` — a search running past `2 ^ 32`
evaluations revisits previously tried candidates. -/
theorem searchBlock_low32_wraps (d0 : Bytes) (n : Nat) (hd0 : d0.length = 32) :
    ((searchBlock d0 n).drop 32).take 28 = List.replicate 28 0 ∧
    searchBlock d0 (n + 2 ^ 32) = searchBlock d0 n := by
  constructor
  · rw [searchBlock, List.append_assoc, drop_len_append _ _ _ hd0,
      take_len_append _ _ _ (List.length_replicate 28 0)]
  · rw [searchBlock, searchBlock, Nat.add_mod_right]

/-- Witness for C10 at the all-zero base block and counter 5. -/
theorem searchBlock_low32_wraps_witness :
    ((searchBlock cBase 5).drop 32).take 28 = List.replicate 28 0 ∧
    searchBlock cBase (5 + 2 ^ 32) = searchBlock cBase 5 :=
  searchBlock_low32_wraps cBase 5 (by decide)

/-- C4 (amended): `proveWork` terminates for every budget (the model is
a total function of the batch count its deadline allows), and its final
nonce is either the envelope's prior nonce — untouched, which is what
happens with an immediately-expired budget or when no tried candidate
scores above zero, since only a strictly positive score is ever stored —
or a stored 32-bit candidate whose block scores above zero. -/
theorem proveWork_nonce_cases (H : Bytes → Bytes) (d0 : Bytes) (batches n0 : Nat) :
    (proveWorkPair H d0 batches n0).2 = n0 ∨
    ((proveWorkPair H d0 batches n0).2 < 2 ^ 32 ∧
      0 < firstBitSet (H (searchBlock d0 (proveWorkPair H d0 batches n0).2))) := by
  rcases proveWorkLoop_spec H d0 (1024 * batches) 0 0 n0 with h | ⟨ha, hb, hc⟩
  · left
    rw [proveWorkPair, h]
  · right
    rw [proveWorkPair] at *
    exact ⟨ha, by rw [hc]; exact hb⟩

/-- Counterexample for C4 as stated: with an immediately-expired budget
(zero batches) on an envelope whose deserialized nonce is `2 ^ 32`,
`proveWork` stores nothing: the nonce keeps its prior value, which is
not any value the 32-bit search could ever produce. -/
theorem proveWork_always_stores_cex :
    proveWorkPair cexHash cBase 0 (2 ^ 32) = (0, 2 ^ 32) ∧
    ¬ (proveWorkPair cexHash cBase 0 (2 ^ 32)).2 < 2 ^ 32 := by
  have h : proveWorkPair cexHash cBase 0 (2 ^ 32) = (0, 2 ^ 32) := by
    rw [proveWorkPair, show 1024 * 0 = 0 from rfl, proveWorkLoop]
  refine ⟨h, ?_⟩
  rw [h]
  norm_num

/-- C3 (amended): after a run of `proveWork` that stored a best nonce
(final best score positive), `workProved` — which hashes the base
followed by the big-endian 256-bit nonce — returns exactly the best
leading-zero-bit score found during the search precisely when the
4-byte little-endian (host-order) and big-endian encodings of the
stored nonce coincide; the search itself hashes the little-endian
counter bytes, not the big-endian encoding the claim states. -/
theorem workProved_matches_palindromic (H : Bytes → Bytes) (d0 : Bytes)
    (batches n0 : Nat)
    (hst : 0 < (proveWorkPair H d0 batches n0).1)
    (hpal : le32 ((proveWorkPair H d0 batches n0).2) =
      bytesOfNat 4 ((proveWorkPair H d0 batches n0).2)) :
    workProved H d0 (proveWorkPair H d0 batches n0).2 =
      (proveWorkPair H d0 batches n0).1 := by
  rcases proveWorkLoop_spec H d0 (1024 * batches) 0 0 n0 with h | ⟨ha, hb, hc⟩
  · rw [proveWorkPair] at hst
    rw [h] at hst
    exact absurd hst (by simp)
  · rw [proveWorkPair] at hst hpal ⊢
    rw [workProved, h256ofNat_small _ ha, ← hpal]
    have hsb : d0 ++ (List.replicate 28 0 ++
        le32 ((proveWorkLoop H d0 (1024 * batches) 0 0 n0).2)) =
        searchBlock d0 ((proveWorkLoop H d0 (1024 * batches) 0 0 n0).2) := by
      rw [searchBlock, Nat.mod_eq_of_lt ha, List.append_assoc]
    rw [hsb]
    exact hc

/-- Witness for C3's amended statement: with `constHash` the search
stores the palindromic nonce 0 with score 8, and `workProved` returns
exactly that best score. -/
theorem workProved_matches_palindromic_witness :
    0 < (proveWorkPair constHash cBase 1 0).1 ∧
    workProved constHash cBase (proveWorkPair constHash cBase 1 0).2 =
      (proveWorkPair constHash cBase 1 0).1 := by
  refine ⟨by rw [pair_constHash]; norm_num, ?_⟩
  exact workProved_matches_palindromic constHash cBase 1 0
    (by rw [pair_constHash]; norm_num) (by rw [pair_constHash]; decide)

/-- Counterexample for C3 as stated: the block hashed for counter 1 is
not the base followed by the big-endian 256-bit encoding of 1, and with
`cexHash` the search finds best score 8 at nonce 1 while `workProved`
afterwards returns 0. -/
theorem workProved_best_score_cex :
    searchBlock cBase 1 ≠ cBase ++ h256ofNat 1 ∧
    workProved cexHash cBase (proveWorkPair cexHash cBase 1 0).2 ≠
      (proveWorkPair cexHash cBase 1 0).1 := by
  refine ⟨by decide, ?_⟩
  rw [pair_cexHash]
  decide

end Whisper
